import Mathlib

/-
Verification development for the Infinity-Pool-Balancer engine
(src/infinity_pool.cpp, class InfinityPool).

Embedding conventions:
* C++ double arithmetic is idealised as exact real arithmetic (the spec's
  formulas and tolerances are themselves stated over reals).
* std::pow is Real.rpow.
* std::unordered_map<std::string, double> is an association list
  (RMap := List (String × ℝ)); the list order models the map's iteration
  order, which is what the C++ code traverses.  A map produced by the
  program never has duplicate keys.
* Non-const operator[] m[k] inserts (k, 0.0) when k is absent; this is
  modelled by mtouch (the insertion) plus mget (the read).  The insertion
  position of a fresh key in an unordered_map's iteration order is
  implementation defined; appending at the end is the representative
  choice taken here (no theorem below depends on that position).
* m.at(k) throws std::out_of_range when k is absent: Err.outOfRange.
* throw std::invalid_argument: Err.invalidArgument.
* A C++ method that throws leaves the object in its state at throw time,
  so every operation returns (mutated-state, Except Err result).
-/

noncomputable section
open scoped Classical

/-- Error kinds the C++ engine can raise: std::invalid_argument thrown by the
validation code, and std::out_of_range thrown by unordered_map::at. -/
inductive Err
  | invalidArgument
  | outOfRange
deriving DecidableEq

/-- Token-keyed real-valued map, as an association list in iteration order. -/
abbrev RMap := List (String × ℝ)

/-- Lookup of a key (first occurrence), as unordered_map::find. -/
def mfind? : RMap → String → Option ℝ
  | [], _ => none
  | (k', v) :: rest, k => if k' = k then some v else mfind? rest k

/-- Read of m[k] (value part of non-const operator[]; absent keys read 0.0,
the value operator[] would have inserted). -/
def mget (m : RMap) (k : String) : ℝ := (mfind? m k).getD 0

/-- The insertion part of non-const operator[]: absent keys get entry (k, 0.0). -/
def mtouch (m : RMap) (k : String) : RMap :=
  if (mfind? m k).isSome then m else m ++ [(k, 0)]

/-- Assignment m[k] = v: overwrite the existing entry or insert a new one. -/
def mset : RMap → String → ℝ → RMap
  | [], k, v => [(k, v)]
  | (k', v') :: rest, k, v =>
    if k' = k then (k', v) :: rest else (k', v') :: mset rest k v

/-- m[k] += v (operator[] insertion followed by compound assignment). -/
def madd : RMap → String → ℝ → RMap
  | [], k, v => [(k, v)]
  | (k', v') :: rest, k, v =>
    if k' = k then (k', v' + v) :: rest else (k', v') :: madd rest k v

/-- std::accumulate of the mapped values starting from 0.0. -/
def msum (m : RMap) : ℝ := List.foldl (fun s e => s + e.2) 0 m

/-- The map assigns a value to every listed token (key-set coverage). -/
def mcovers (m : RMap) (ts : List String) : Prop :=
  ∀ t ∈ ts, (mfind? m t).isSome = true

/-- std::any_of over the entries with predicate (value ≤ 0), as used by
InfinityPool::initialize and the positivity loop of deposit_all. -/
def anyNonpos : RMap → Prop
  | [] => False
  | e :: rest => e.2 ≤ 0 ∨ anyNonpos rest

/-- std::count_if of entries with non-zero value (InfinityPool::deposit_one). -/
def countNZ : RMap → ℕ
  | [] => 0
  | e :: rest => (if e.2 ≠ 0 then 1 else 0) + countNZ rest

/-- std::find_if: first entry with non-zero value (InfinityPool::deposit_one). -/
def findNZ? : RMap → Option (String × ℝ)
  | [] => none
  | e :: rest => if e.2 ≠ 0 then some e else findNZ? rest

/-- GLOBAL CONSTANT: const double SUPPLY = 1e15 (maximum supply of pool shares). -/
def SUPPLY : ℝ := 10 ^ (15 : ℕ)

/-- GLOBAL CONSTANT: const double FIRST = 1e8 (shares issued to first depositor). -/
def FIRST : ℝ := 10 ^ (8 : ℕ)

/-- The state of class InfinityPool: token list, weight map, balance map,
issued shares and the cached invariant. -/
structure Pool where
  tokens : List String
  weights : RMap
  balances : RMap
  shares_issued : ℝ
  invariant : ℝ

/-- The constructor InfinityPool::InfinityPool: at least two tokens, all
other fields empty or zero. -/
def mkPool (tokens : List String) : Except Err Pool :=
  if tokens.length < 2 then .error .invalidArgument
  else .ok ⟨tokens, [], [], 0, 0⟩

/-- tokens[0], the canonical reference token used by the share formulas. -/
def tok0 (p : Pool) : String := p.tokens.headD ""

/-- InfinityPool::set_invariant: invariant = ∏ balances[token] ^ weights[token]
over the token list; both map accesses are non-const operator[], so they
insert 0.0 entries for missing tokens as the C++ does. -/
def Pool.set_invariant (p : Pool) : Pool :=
  let r := List.foldl
    (fun (acc : ℝ × RMap × RMap) t =>
      let bs := mtouch acc.2.1 t
      let ws := mtouch acc.2.2 t
      (acc.1 * mget bs t ^ mget ws t, bs, ws))
    (1, p.balances, p.weights) p.tokens
  { p with invariant := r.1, balances := r.2.1, weights := r.2.2 }

/-- The weight-setting loop of InfinityPool::initialize:
weights[token] = amount_in.at(token) / Σ amount_in, over the token list.
amount_in.at throws out_of_range on a missing token, leaving the weights
written so far in place. -/
def initWeights (amount_in : RMap) (s : ℝ) : List String → RMap → RMap × Except Err Unit
  | [], ws => (ws, .ok ())
  | t :: ts, ws =>
    match mfind? amount_in t with
    | none => (ws, .error .outOfRange)
    | some v => initWeights amount_in s ts (mset ws t (v / s))

/-- InfinityPool::initialize: requires amount_in.size() == tokens.size() and
all amounts positive (invalid_argument otherwise), then sets
balances = amount_in, derives each weight as amount/Σ, and finally sets
shares_issued = FIRST.  Key-set equality is NOT checked beyond the size:
a missing token is only discovered by .at inside the weight loop, after
balances have already been replaced. -/
def Pool.init (p : Pool) (amount_in : RMap) : Pool × Except Err Unit :=
  if amount_in.length ≠ p.tokens.length then (p, .error .invalidArgument)
  else if anyNonpos amount_in then (p, .error .invalidArgument)
  else
    let r := initWeights amount_in (msum amount_in) p.tokens p.weights
    match r.2 with
    | .error e => ({ p with balances := amount_in, weights := r.1 }, .error e)
    | .ok _ =>
      ({ p with balances := amount_in, weights := r.1, shares_issued := FIRST }, .ok ())

/-- The element-wise comparator std::equal(first1, last1, first2, pred) with
pred a < tolerance test on |a - b|: it walks the FIRST range; a second range
that runs out early is undefined behaviour in C++ (modelled as False; no
program path exercised by a claim reaches it). -/
def stdEqualTol (tol : ℝ) : List ℝ → List ℝ → Prop
  | [], _ => True
  | _ :: _, [] => False
  | a :: as, b :: bs => |a - b| < tol ∧ stdEqualTol tol as bs

/-- The normalized ratio vector of a map, in the map's iteration order:
each value divided by the accumulate-sum of the same map. -/
def ratioVec (m : RMap) : List ℝ := m.map (fun e => e.2 / msum m)

/-- InfinityPool::check_deposit_ratio: builds the ratio vector of the current
balances and of amount_in, each in its own map's iteration order, and
compares them element-wise within the tolerance. -/
def check_deposit_ratio (balances amount_in : RMap) (tolerance : ℝ) : Prop :=
  stdEqualTol tolerance (ratioVec balances) (ratioVec amount_in)

/-- Tolerance 1e-6 passed by every call site of check_deposit_ratio. -/
def tolerance6 : ℝ := 1e-6

/-- InfinityPool::deposit_all: positivity of every amount, then the ratio
check; on success adds every amount to its balance (creating entries for
fresh keys, as operator[] does), recomputes the invariant when weights are
already assigned, and returns amount_in.at(tokens[0]) * SUPPLY divided by
the new balances.at(tokens[0]). -/
def Pool.deposit_all (p : Pool) (amount_in : RMap) : Pool × Except Err ℝ :=
  if anyNonpos amount_in then (p, .error .invalidArgument)
  else if p.weights = [] then
    if ¬ check_deposit_ratio p.balances amount_in tolerance6 then
      (p, .error .invalidArgument)
    else
      let bs := List.foldl (fun b e => madd b e.1 e.2) p.balances amount_in
      let p1 := { p with balances := bs }
      match mfind? amount_in (tok0 p), mfind? bs (tok0 p) with
      | some a0, some b0 => (p1, .ok (a0 * SUPPLY / b0))
      | _, _ => (p1, .error .outOfRange)
  else
    if ¬ check_deposit_ratio p.balances amount_in tolerance6 then
      (p, .error .invalidArgument)
    else
      let bs := List.foldl (fun b e => madd b e.1 e.2) p.balances amount_in
      let p1 := Pool.set_invariant { p with balances := bs }
      match mfind? amount_in (tok0 p), mfind? p1.balances (tok0 p) with
      | some a0, some b0 => (p1, .ok (a0 * SUPPLY / b0))
      | _, _ => (p1, .error .outOfRange)

/-- InfinityPool::deposit_one: requires weights assigned; exactly one entry of
amount_in non-zero; that amount not negative; then mints
amount * SUPPLY / balances.at(token) from the pre-deposit balance, adds the
amount to the balance and recomputes the invariant.  balances.at throws
out_of_range when the non-zero key is not a pool balance key. -/
def Pool.deposit_one (p : Pool) (amount_in : RMap) : Pool × Except Err ℝ :=
  if p.weights = [] then (p, .error .invalidArgument)
  else if countNZ amount_in ≠ 1 then (p, .error .invalidArgument)
  else
    match findNZ? amount_in with
    | none => (p, .error .invalidArgument)
    | some e =>
      if e.2 < 0 then (p, .error .invalidArgument)
      else
        match mfind? p.balances e.1 with
        | none => (p, .error .outOfRange)
        | some bal =>
          (Pool.set_invariant { p with balances := mset p.balances e.1 (bal + e.2) },
           .ok (e.2 * SUPPLY / bal))

/-- InfinityPool::deposit_any: requires weights assigned; ratio check; adds
every amount, recomputes the invariant, and returns the tokens[0]-relative
share formula (no positivity loop, unlike deposit_all). -/
def Pool.deposit_any (p : Pool) (amount_in : RMap) : Pool × Except Err ℝ :=
  if p.weights = [] then (p, .error .invalidArgument)
  else if ¬ check_deposit_ratio p.balances amount_in tolerance6 then
    (p, .error .invalidArgument)
  else
    let bs := List.foldl (fun b e => madd b e.1 e.2) p.balances amount_in
    let p1 := Pool.set_invariant { p with balances := bs }
    match mfind? amount_in (tok0 p), mfind? p1.balances (tok0 p) with
    | some a0, some b0 => (p1, .ok (a0 * SUPPLY / b0))
    | _, _ => (p1, .error .outOfRange)

/-- The per-token loop of InfinityPool::withdraw_all:
amount_out[token] = balances[token] * (1 - (shares_issued - redeem_ratio) ^ (1/weights[token]));
balances[token] -= amount_out[token].  Threads the output map and the two
state maps (operator[] reads may insert zero entries). -/
def wdLoop (si rr : ℝ) : List String → RMap → RMap → RMap → RMap × RMap × RMap
  | [], aout, bs, ws => (aout, bs, ws)
  | t :: ts, aout, bs, ws =>
    let bs1 := mtouch bs t
    let ws1 := mtouch ws t
    let a := mget bs1 t * (1 - (si - rr) ^ (1 / mget ws1 t))
    wdLoop si rr ts (mset aout t a) (mset bs1 t (mget bs1 t - a)) ws1

/-- InfinityPool::withdraw_all: redeem must be positive and
redeem / SUPPLY must not exceed shares_issued (invalid_argument otherwise,
before any mutation); then runs the per-token withdrawal loop, decrements
shares_issued by the ratio and recomputes the invariant. -/
def Pool.withdraw_all (p : Pool) (redeem : ℝ) : Pool × Except Err RMap :=
  if redeem ≤ 0 then (p, .error .invalidArgument)
  else
    let redeem_ratio := redeem / SUPPLY
    if redeem_ratio > p.shares_issued then (p, .error .invalidArgument)
    else
      let r := wdLoop p.shares_issued redeem_ratio p.tokens [] p.balances p.weights
      (Pool.set_invariant
        { p with balances := r.2.1, weights := r.2.2,
                 shares_issued := p.shares_issued - redeem_ratio },
       .ok r.1)

/-- InfinityPool::withdraw_one: requires weights assigned; same redeem
validation as withdraw_all; withdraws the single token by the same
power-law formula, decrements shares and recomputes the invariant. -/
def Pool.withdraw_one (p : Pool) (token : String) (redeem : ℝ) : Pool × Except Err ℝ :=
  if p.weights = [] then (p, .error .invalidArgument)
  else if redeem ≤ 0 then (p, .error .invalidArgument)
  else
    let redeem_ratio := redeem / SUPPLY
    if redeem_ratio > p.shares_issued then (p, .error .invalidArgument)
    else
      let bs1 := mtouch p.balances token
      let ws1 := mtouch p.weights token
      let a := mget bs1 token * (1 - (p.shares_issued - redeem_ratio) ^ (1 / mget ws1 token))
      (Pool.set_invariant
        { p with balances := mset bs1 token (mget bs1 token - a), weights := ws1,
                 shares_issued := p.shares_issued - redeem_ratio },
       .ok a)

/-- The per-token loop of InfinityPool::withdraw_any:
amount_out[token] = ratios.at(token) * redeem_ratio (out_of_range on a
missing key, aborting the loop mid-way); balances[token] -= amount_out[token]. -/
def waLoop (rr : ℝ) (ratios : RMap) : List String → RMap → RMap → (RMap × RMap) × Except Err Unit
  | [], aout, bs => ((aout, bs), .ok ())
  | t :: ts, aout, bs =>
    match mfind? ratios t with
    | none => ((aout, bs), .error .outOfRange)
    | some rv =>
      let a := rv * rr
      let bs1 := mtouch bs t
      waLoop rr ratios ts (mset aout t a) (mset bs1 t (mget bs1 t - a))

/-- InfinityPool::withdraw_any: requires weights assigned; ratios must pass
the proportionality check; redeem validated as in withdraw_all; per-token
withdrawal ratios.at(token) * redeem_ratio; shares and invariant updated
only when the loop completes. -/
def Pool.withdraw_any (p : Pool) (redeem : ℝ) (ratios : RMap) : Pool × Except Err RMap :=
  if p.weights = [] then (p, .error .invalidArgument)
  else if ¬ check_deposit_ratio p.balances ratios tolerance6 then
    (p, .error .invalidArgument)
  else if redeem ≤ 0 then (p, .error .invalidArgument)
  else
    let redeem_ratio := redeem / SUPPLY
    if redeem_ratio > p.shares_issued then (p, .error .invalidArgument)
    else
      match waLoop redeem_ratio ratios p.tokens [] p.balances with
      | ((aout, bs), .ok _) =>
        (Pool.set_invariant
          { p with balances := bs, shares_issued := p.shares_issued - redeem_ratio },
         .ok aout)
      | ((_, bs), .error e) => ({ p with balances := bs }, .error e)

/-- InfinityPool::swap: requires weights assigned, amount_in positive and not
exceeding balances[t_in]; computes
amount_out = balances[t_out] * (1 - ((balances[t_in] - amount_in)/balances[t_in]) ^ (weights[t_in]/weights[t_out]))
from the pre-swap balances, then debits t_in, credits t_out and recomputes
the invariant.  All map reads are non-const operator[]. -/
def Pool.swap (p : Pool) (t_in t_out : String) (amount_in : ℝ) : Pool × Except Err ℝ :=
  if p.weights = [] then (p, .error .invalidArgument)
  else if amount_in ≤ 0 then (p, .error .invalidArgument)
  else
    let bs1 := mtouch p.balances t_in
    if mget bs1 t_in < amount_in then ({ p with balances := bs1 }, .error .invalidArgument)
    else
      let bs2 := mtouch bs1 t_out
      let ws1 := mtouch (mtouch p.weights t_in) t_out
      let amount_out := mget bs2 t_out *
        (1 - ((mget bs2 t_in - amount_in) / mget bs2 t_in) ^ (mget ws1 t_in / mget ws1 t_out))
      let bs3 := mset bs2 t_in (mget bs2 t_in - amount_in)
      let bs4 := mset bs3 t_out (mget bs3 t_out + amount_out)
      (Pool.set_invariant { p with balances := bs4, weights := ws1 }, .ok amount_out)

/-- The accumulate of InfinityPool::equalize:
Σ weights-entry.second * inputs.at(entry.first) over the weights map, with
out_of_range aborting before any mutation. -/
def eqAccum (inputs : RMap) : RMap → ℝ → Except Err ℝ
  | [], acc => .ok acc
  | e :: rest, acc =>
    match mfind? inputs e.1 with
    | none => .error .outOfRange
    | some v => eqAccum inputs rest (acc + e.2 * v)

/-- The per-token loop of InfinityPool::equalize:
amount_out[token] = balances[token] * ((total_weight_in/weights[token]) ^ (1/weights[token]) - 1);
balances[token] += inputs.at(token), aborting mid-way on a missing input key. -/
def eqLoop (twi : ℝ) (inputs : RMap) :
    List String → RMap → RMap → RMap → (RMap × RMap × RMap) × Except Err Unit
  | [], aout, bs, ws => ((aout, bs, ws), .ok ())
  | t :: ts, aout, bs, ws =>
    let bs1 := mtouch bs t
    let ws1 := mtouch ws t
    let a := mget bs1 t * ((twi / mget ws1 t) ^ (1 / mget ws1 t) - 1)
    let aout1 := mset aout t a
    match mfind? inputs t with
    | none => ((aout1, bs1, ws1), .error .outOfRange)
    | some v => eqLoop twi inputs ts aout1 (mset bs1 t (mget bs1 t + v)) ws1

/-- InfinityPool::equalize: requires weights assigned; both inputs and
ratio_out must pass the proportionality check; computes total_weight_in,
runs the per-token loop and recomputes the invariant on completion. -/
def Pool.equalize (p : Pool) (inputs ratio_out : RMap) : Pool × Except Err RMap :=
  if p.weights = [] then (p, .error .invalidArgument)
  else if ¬ check_deposit_ratio p.balances inputs tolerance6 ∨
          ¬ check_deposit_ratio p.balances ratio_out tolerance6 then
    (p, .error .invalidArgument)
  else
    match eqAccum inputs p.weights 0 with
    | .error e => (p, .error e)
    | .ok twi =>
      match eqLoop twi inputs p.tokens [] p.balances p.weights with
      | ((aout, bs, ws), .ok _) =>
        (Pool.set_invariant { p with balances := bs, weights := ws }, .ok aout)
      | ((_, bs, ws), .error e) => ({ p with balances := bs, weights := ws }, .error e)

/-- The weighted-power invariant ∏ balances[t] ^ weights[t] as a pure function
of the two maps, used to characterise set_invariant. -/
def prodInv (ts : List String) (bs ws : RMap) : ℝ :=
  (ts.map (fun t => mget bs t ^ mget ws t)).prod

/-- A freshly constructed two-token pool (InfinityPool({"X", "Y"})). -/
def P0 : Pool := ⟨["X", "Y"], [], [], 0, 0⟩

/-- The initial deposit map {X: 100, Y: 100}. -/
def amtsXY : RMap := [("X", (100 : ℝ)), ("Y", 100)]

/-- The pool of the spec's swap example: weights {X: 0.5, Y: 0.5},
balances {X: 100, Y: 100}, FIRST shares issued (the state of P0 right
after initialize({X: 100, Y: 100})). -/
def P3 : Pool :=
  ⟨["X", "Y"], [("X", (1 : ℝ)/2), ("Y", (1 : ℝ)/2)], amtsXY, FIRST, 0⟩

/-! Helper lemmas about the map primitives. -/

theorem mfind?_append (m m' : RMap) (k : String) :
    mfind? (m ++ m') k = ((mfind? m k).or (mfind? m' k)) := by
  induction m with
  | nil => simp [mfind?]
  | cons e rest ih =>
    obtain ⟨k', v⟩ := e
    by_cases h : k' = k <;> simp [mfind?, h, ih]

theorem mget_mtouch (m : RMap) (k k' : String) : mget (mtouch m k) k' = mget m k' := by
  unfold mtouch
  by_cases h : (mfind? m k).isSome
  · rw [if_pos h]
  · rw [if_neg h]
    unfold mget
    rw [mfind?_append]
    by_cases hk : k = k'
    · subst hk
      rw [Option.not_isSome_iff_eq_none] at h
      rw [h]
      simp [mfind?]
    · have hnone : mfind? [(k, (0:ℝ))] k' = none := by simp [mfind?, hk]
      rw [hnone, Option.or_none]

theorem mtouch_of_isSome (m : RMap) (k : String) (h : (mfind? m k).isSome) :
    mtouch m k = m := by
  simp [mtouch, h]

theorem mfind?_mset_self (m : RMap) (k : String) (v : ℝ) :
    mfind? (mset m k v) k = some v := by
  induction m with
  | nil => simp [mset, mfind?]
  | cons e rest ih =>
    obtain ⟨k', v'⟩ := e
    by_cases h : k' = k <;> simp [mset, mfind?, h, ih]

theorem mfind?_mset_ne (m : RMap) (k k' : String) (v : ℝ) (h : k ≠ k') :
    mfind? (mset m k v) k' = mfind? m k' := by
  induction m with
  | nil => simp [mset, mfind?, h]
  | cons e rest ih =>
    obtain ⟨k'', v''⟩ := e
    by_cases h2 : k'' = k
    · subst h2
      simp [mset, mfind?, h]
    · by_cases h3 : k'' = k'
      · subst h3
        simp [mset, mfind?, h2]
      · simp [mset, mfind?, h2, h3, ih]

theorem mget_mset_self (m : RMap) (k : String) (v : ℝ) : mget (mset m k v) k = v := by
  simp [mget, mfind?_mset_self]

theorem mget_mset_ne (m : RMap) (k k' : String) (v : ℝ) (h : k ≠ k') :
    mget (mset m k v) k' = mget m k' := by
  simp [mget, mfind?_mset_ne m k k' v h]

theorem isSome_mset (m : RMap) (k k' : String) (v : ℝ)
    (h : (mfind? m k').isSome) : (mfind? (mset m k v) k').isSome := by
  by_cases hk : k = k'
  · subst hk
    simp [mfind?_mset_self]
  · rwa [mfind?_mset_ne m k k' v hk]

theorem foldl_mtouch_covers (ts : List String) (m : RMap) (h : mcovers m ts) :
    List.foldl mtouch m ts = m := by
  induction ts with
  | nil => rfl
  | cons t ts ih =>
    have h1 : mtouch m t = m := mtouch_of_isSome m t (h t (by simp))
    simp only [List.foldl_cons, h1]
    exact ih (fun u hu => h u (by simp [hu]))

/-! Characterisation of set_invariant. -/

theorem prodInv_congr (ts : List String) (bs bs' ws ws' : RMap)
    (hb : ∀ k, mget bs k = mget bs' k) (hw : ∀ k, mget ws k = mget ws' k) :
    prodInv ts bs ws = prodInv ts bs' ws' := by
  unfold prodInv
  congr 1
  exact List.map_congr_left (fun t _ => by rw [hb t, hw t])

theorem si_loop_spec (ts : List String) (a : ℝ) (bs ws : RMap) :
    List.foldl
      (fun (acc : ℝ × RMap × RMap) t =>
        let bs := mtouch acc.2.1 t
        let ws := mtouch acc.2.2 t
        (acc.1 * mget bs t ^ mget ws t, bs, ws))
      (a, bs, ws) ts
      = (a * prodInv ts bs ws, List.foldl mtouch bs ts, List.foldl mtouch ws ts) := by
  induction ts generalizing a bs ws with
  | nil => simp [prodInv]
  | cons t ts ih =>
    simp only [List.foldl_cons]
    rw [ih]
    have hb : ∀ k, mget (mtouch bs t) k = mget bs k := fun k => mget_mtouch bs t k
    have hw : ∀ k, mget (mtouch ws t) k = mget ws k := fun k => mget_mtouch ws t k
    rw [prodInv_congr ts (mtouch bs t) bs (mtouch ws t) ws hb hw]
    have : prodInv (t :: ts) bs ws = (mget bs t ^ mget ws t) * prodInv ts bs ws := by
      simp [prodInv]
    rw [mget_mtouch bs t t, mget_mtouch ws t t, this]
    ring_nf

theorem set_invariant_invariant (p : Pool) :
    (Pool.set_invariant p).invariant = prodInv p.tokens p.balances p.weights := by
  simp [Pool.set_invariant, si_loop_spec]

theorem set_invariant_shares (p : Pool) :
    (Pool.set_invariant p).shares_issued = p.shares_issued := by
  simp [Pool.set_invariant]

theorem set_invariant_tokens (p : Pool) : (Pool.set_invariant p).tokens = p.tokens := by
  simp [Pool.set_invariant]

theorem set_invariant_weights (p : Pool) (h : mcovers p.weights p.tokens) :
    (Pool.set_invariant p).weights = p.weights := by
  simp [Pool.set_invariant, si_loop_spec, foldl_mtouch_covers p.tokens p.weights h]

theorem set_invariant_balances (p : Pool) (h : mcovers p.balances p.tokens) :
    (Pool.set_invariant p).balances = p.balances := by
  simp [Pool.set_invariant, si_loop_spec, foldl_mtouch_covers p.tokens p.balances h]

/-! Lemmas about sums, ratio vectors and the element-wise comparison. -/

theorem msum_shift (m : RMap) (c : ℝ) :
    List.foldl (fun s e => s + e.2) c m = c + msum m := by
  induction m generalizing c with
  | nil => simp [msum]
  | cons e rest ih =>
    simp only [msum, List.foldl_cons, zero_add] at *
    rw [ih (c + e.2), ih e.2, add_assoc]

theorem msum_cons (e : String × ℝ) (m : RMap) : msum (e :: m) = e.2 + msum m := by
  simp only [msum, List.foldl_cons, zero_add]
  exact msum_shift m e.2

theorem msum_scale (m : RMap) (c : ℝ) :
    msum (m.map (fun e => (e.1, c * e.2))) = c * msum m := by
  induction m with
  | nil => simp [msum]
  | cons e rest ih =>
    simp only [List.map_cons, msum_cons, ih]
    ring

theorem ratioVec_scale (m : RMap) (c : ℝ) (hc : c ≠ 0) :
    ratioVec (m.map (fun e => (e.1, c * e.2))) = ratioVec m := by
  unfold ratioVec
  rw [msum_scale m c, List.map_map]
  exact List.map_congr_left (fun e _ => mul_div_mul_left e.2 (msum m) hc)

theorem stdEqualTol_refl (tol : ℝ) (htol : 0 < tol) (l : List ℝ) : stdEqualTol tol l l := by
  induction l with
  | nil => trivial
  | cons a as ih => exact ⟨by simpa using htol, ih⟩

theorem stdEqualTol_get_false (tol : ℝ) (xs ys : List ℝ) (i : ℕ)
    (hx : i < xs.length) (hy : i < ys.length)
    (hfar : tol ≤ |xs.getD i 0 - ys.getD i 0|) : ¬ stdEqualTol tol xs ys := by
  induction xs generalizing ys i with
  | nil => simp at hx
  | cons a as ih =>
    cases ys with
    | nil => simp at hy
    | cons b bs =>
      cases i with
      | zero =>
        intro hcontra
        exact absurd hcontra.1 (not_lt.mpr (by simpa using hfar))
      | succ j =>
        intro hcontra
        exact ih bs j (by simpa using hx) (by simpa using hy) (by simpa using hfar) hcontra.2

theorem stdEqualTol_nil_left (tol : ℝ) (l : List ℝ) : stdEqualTol tol [] l := trivial

/-! Presence of keys after the deposit mutation loop. -/

theorem isSome_madd_self (m : RMap) (k : String) (v : ℝ) :
    (mfind? (madd m k v) k).isSome = true := by
  induction m with
  | nil => simp [madd, mfind?]
  | cons e rest ih =>
    obtain ⟨k', v'⟩ := e
    by_cases h : k' = k <;> simp [madd, mfind?, h, ih]

theorem isSome_madd_mono (m : RMap) (k k' : String) (v : ℝ)
    (h : (mfind? m k').isSome = true) : (mfind? (madd m k v) k').isSome = true := by
  induction m with
  | nil => simp [mfind?] at h
  | cons e rest ih =>
    obtain ⟨k'', v''⟩ := e
    by_cases h2 : k'' = k
    · subst h2
      by_cases h3 : k'' = k' <;> simp_all [madd, mfind?]
    · by_cases h3 : k'' = k' <;> simp_all [madd, mfind?]

theorem isSome_foldl_madd_mono (l : RMap) (m : RMap) (k : String)
    (h : (mfind? m k).isSome = true) :
    (mfind? (List.foldl (fun b e => madd b e.1 e.2) m l) k).isSome = true := by
  induction l generalizing m with
  | nil => simpa using h
  | cons e rest ih =>
    simp only [List.foldl_cons]
    exact ih (madd m e.1 e.2) (isSome_madd_mono m e.1 k e.2 h)

theorem isSome_foldl_madd (l : RMap) (m : RMap) (k : String)
    (h : k ∈ l.map Prod.fst) :
    (mfind? (List.foldl (fun b e => madd b e.1 e.2) m l) k).isSome = true := by
  induction l generalizing m with
  | nil => simp at h
  | cons e rest ih =>
    simp only [List.map_cons, List.mem_cons] at h
    simp only [List.foldl_cons]
    rcases h with h | h
    · subst h
      exact isSome_foldl_madd_mono rest (madd m e.1 e.2) e.1 (isSome_madd_self m e.1 e.2)
    · exact ih (madd m e.1 e.2) h

/-! The weighted-power product: decomposition at two distinct tokens, and the
strict decrease caused by the swap formula. -/

theorem prodInv_pos (ts : List String) (bs ws : RMap)
    (hb : ∀ t ∈ ts, 0 < mget bs t) : 0 < prodInv ts bs ws := by
  refine List.prod_pos ?_
  intro x hx
  simp only [List.mem_map] at hx
  obtain ⟨t, ht, rfl⟩ := hx
  exact Real.rpow_pos_of_pos (hb t ht) _

theorem prod_two_factors_lt (ts : List String) (hnd : ts.Nodup) (bs ws bs' : RMap)
    (t_in t_out : String) (hin : t_in ∈ ts) (hout : t_out ∈ ts) (hne : t_in ≠ t_out)
    (hsame : ∀ t ∈ ts, t ≠ t_in → t ≠ t_out → mget bs' t = mget bs t)
    (hpos : ∀ t ∈ ts, 0 < mget bs t)
    (hkey : mget bs' t_in ^ mget ws t_in * mget bs' t_out ^ mget ws t_out
          < mget bs t_in ^ mget ws t_in * mget bs t_out ^ mget ws t_out) :
    prodInv ts bs' ws < prodInv ts bs ws := by
  classical
  set f : String → ℝ := fun t => mget bs t ^ mget ws t with hf
  set g : String → ℝ := fun t => mget bs' t ^ mget ws t with hg
  have hout' : t_out ∈ ts.erase t_in := (List.mem_erase_of_ne hne.symm).mpr hout
  have hrest_eq : (((ts.erase t_in).erase t_out).map g).prod
      = (((ts.erase t_in).erase t_out).map f).prod := by
    congr 1
    refine List.map_congr_left ?_
    intro t ht
    have h1 : t ≠ t_out ∧ t ∈ ts.erase t_in := (hnd.erase t_in).mem_erase_iff.mp ht
    have h2 : t ≠ t_in ∧ t ∈ ts := hnd.mem_erase_iff.mp h1.2
    simp only [hg, hf]
    rw [hsame t h2.2 h2.1 h1.1]
  have hsplit_f : (ts.map f).prod
      = f t_in * (f t_out * (((ts.erase t_in).erase t_out).map f).prod) := by
    rw [List.prod_map_erase f hout', List.prod_map_erase f hin]
  have hsplit_g : (ts.map g).prod
      = g t_in * (g t_out * (((ts.erase t_in).erase t_out).map g).prod) := by
    rw [List.prod_map_erase g hout', List.prod_map_erase g hin]
  have hrest_pos : 0 < (((ts.erase t_in).erase t_out).map f).prod := by
    refine List.prod_pos ?_
    intro x hx
    simp only [List.mem_map] at hx
    obtain ⟨t, ht, rfl⟩ := hx
    have h1 := (hnd.erase t_in).mem_erase_iff.mp ht
    have h2 := hnd.mem_erase_iff.mp h1.2
    exact Real.rpow_pos_of_pos (hpos t h2.2) _
  have : g t_in * g t_out * (((ts.erase t_in).erase t_out).map f).prod
      < f t_in * f t_out * (((ts.erase t_in).erase t_out).map f).prod :=
    mul_lt_mul_of_pos_right hkey hrest_pos
  calc prodInv ts bs' ws
      = g t_in * g t_out * (((ts.erase t_in).erase t_out).map f).prod := by
        rw [prodInv, hsplit_g, hrest_eq]; ring
    _ < f t_in * f t_out * (((ts.erase t_in).erase t_out).map f).prod := this
    _ = prodInv ts bs ws := by rw [prodInv, hsplit_f]; ring

theorem swap_factor_lt (Bin Bout Win Wout a : ℝ)
    (hBin : 0 < Bin) (hBout : 0 < Bout) (hWin : 0 < Win) (hWout : 0 < Wout)
    (ha : 0 < a) (hale : a ≤ Bin) :
    (Bin - a) ^ Win * (Bout + Bout * (1 - ((Bin - a) / Bin) ^ (Win / Wout))) ^ Wout
      < Bin ^ Win * Bout ^ Wout := by
  rcases eq_or_lt_of_le hale with heq | hlt
  · -- a = Bin: the in-balance drops to zero, so the new product is zero.
    subst heq
    rw [sub_self, Real.zero_rpow hWin.ne', zero_mul]
    exact mul_pos (Real.rpow_pos_of_pos hBin _) (Real.rpow_pos_of_pos hBout _)
  · set r : ℝ := (Bin - a) / Bin with hr
    have hr0 : 0 < r := div_pos (by linarith) hBin
    have hr1 : r < 1 := (div_lt_one hBin).mpr (by linarith)
    set e : ℝ := Win / Wout with he
    have he0 : 0 < e := div_pos hWin hWout
    set u : ℝ := r ^ e with hu
    have hu0 : 0 < u := Real.rpow_pos_of_pos hr0 e
    have hu1 : u < 1 := Real.rpow_lt_one hr0.le hr1 he0
    have hBina : Bin - a = Bin * r := by
      rw [hr]
      field_simp
    have hBouta : Bout + Bout * (1 - u) = Bout * (2 - u) := by ring
    have hrWin : r ^ Win = u ^ Wout := by
      rw [hu, ← Real.rpow_mul hr0.le e Wout, he, div_mul_cancel₀ _ hWout.ne']
    have hlt1 : u * (2 - u) < 1 := by nlinarith [mul_pos (sub_pos.2 hu1) (sub_pos.2 hu1)]
    have hpos1 : 0 < u * (2 - u) := mul_pos hu0 (by linarith)
    have hfac : (u * (2 - u)) ^ Wout < 1 := Real.rpow_lt_one hpos1.le hlt1 hWout
    calc (Bin - a) ^ Win * (Bout + Bout * (1 - r ^ e)) ^ Wout
        = (Bin * r) ^ Win * (Bout * (2 - u)) ^ Wout := by rw [hBina, ← hu, hBouta]
      _ = Bin ^ Win * r ^ Win * (Bout ^ Wout * (2 - u) ^ Wout) := by
          rw [Real.mul_rpow hBin.le hr0.le, Real.mul_rpow hBout.le (by linarith)]
      _ = Bin ^ Win * Bout ^ Wout * (u ^ Wout * (2 - u) ^ Wout) := by
          rw [hrWin]; ring
      _ = Bin ^ Win * Bout ^ Wout * (u * (2 - u)) ^ Wout := by
          rw [Real.mul_rpow hu0.le (by linarith : (0:ℝ) ≤ 2 - u)]
      _ < Bin ^ Win * Bout ^ Wout :=
          mul_lt_of_lt_one_right
            (mul_pos (Real.rpow_pos_of_pos hBin _) (Real.rpow_pos_of_pos hBout _)) hfac

/-! Characterisation of a successful swap (all four map reads present, so the
operator[] insertions are no-ops). -/

theorem swap_ok (p : Pool) (t_in t_out : String) (a : ℝ)
    (hw : ¬ p.weights = []) (ha : ¬ a ≤ 0)
    (hBin : (mfind? p.balances t_in).isSome = true)
    (hBout : (mfind? p.balances t_out).isSome = true)
    (hWin : (mfind? p.weights t_in).isSome = true)
    (hWout : (mfind? p.weights t_out).isSome = true)
    (hle : ¬ mget p.balances t_in < a) :
    Pool.swap p t_in t_out a =
      (Pool.set_invariant { p with
          balances := mset (mset p.balances t_in (mget p.balances t_in - a)) t_out
            (mget (mset p.balances t_in (mget p.balances t_in - a)) t_out
              + mget p.balances t_out *
                (1 - ((mget p.balances t_in - a) / mget p.balances t_in)
                  ^ (mget p.weights t_in / mget p.weights t_out))) },
       .ok (mget p.balances t_out *
              (1 - ((mget p.balances t_in - a) / mget p.balances t_in)
                ^ (mget p.weights t_in / mget p.weights t_out)))) := by
  simp only [Pool.swap]
  rw [mtouch_of_isSome p.balances t_in hBin]
  rw [if_neg hw, if_neg ha, if_neg hle]
  rw [mtouch_of_isSome p.balances t_out hBout, mtouch_of_isSome p.weights t_in hWin,
    mtouch_of_isSome p.weights t_out hWout]

/-- C1 (amended): the claim as stated is false (see c1_counterexample); what
actually holds is that a valid swap between two DISTINCT pool tokens on a
weighted pool with positive balances and weights strictly DECREASES the
invariant recomputed by set_invariant: the code credits amount_out to t_out
instead of debiting it, so the weighted-power product shrinks. -/
theorem c1_swap_strictly_decreases_invariant
    (p : Pool) (t_in t_out : String) (a : ℝ)
    (hnd : p.tokens.Nodup)
    (hin : t_in ∈ p.tokens) (hout : t_out ∈ p.tokens) (hne : t_in ≠ t_out)
    (hcovB : mcovers p.balances p.tokens) (hcovW : mcovers p.weights p.tokens)
    (hbpos : ∀ t ∈ p.tokens, 0 < mget p.balances t)
    (hwpos : ∀ t ∈ p.tokens, 0 < mget p.weights t)
    (ha : 0 < a) (hale : a ≤ mget p.balances t_in) :
    (Pool.swap p t_in t_out a).1.invariant < (Pool.set_invariant p).invariant := by
  have hw : ¬ p.weights = [] := by
    intro h
    have := hcovW t_in hin
    rw [h] at this
    simp [mfind?] at this
  have hswap := swap_ok p t_in t_out a hw (not_le.mpr ha)
    (hcovB t_in hin) (hcovB t_out hout) (hcovW t_in hin) (hcovW t_out hout)
    (not_lt.mpr hale)
  rw [hswap]
  rw [set_invariant_invariant, set_invariant_invariant]
  set Bin := mget p.balances t_in with hBin
  set Bout := mget p.balances t_out with hBout
  set Win := mget p.weights t_in with hWin
  set Wout := mget p.weights t_out with hWout
  set ao : ℝ := Bout * (1 - ((Bin - a) / Bin) ^ (Win / Wout)) with hao
  set bs3 : RMap := mset p.balances t_in (Bin - a) with hbs3
  set bs4 : RMap := mset bs3 t_out (mget bs3 t_out + ao) with hbs4
  have hbs3_out : mget bs3 t_out = Bout := by
    rw [hbs3, hBout]
    exact mget_mset_ne p.balances t_in t_out (Bin - a) hne
  have hbs4_in : mget bs4 t_in = Bin - a := by
    rw [hbs4, mget_mset_ne bs3 t_out t_in _ hne.symm, hbs3]
    exact mget_mset_self p.balances t_in (Bin - a)
  have hbs4_out : mget bs4 t_out = Bout + ao := by
    rw [hbs4, mget_mset_self, hbs3_out]
  refine prod_two_factors_lt p.tokens hnd p.balances p.weights bs4 t_in t_out
    hin hout hne ?_ hbpos ?_
  · intro t ht htin htout
    rw [hbs4, mget_mset_ne bs3 t_out t _ (fun h => htout h.symm), hbs3,
      mget_mset_ne p.balances t_in t _ (fun h => htin h.symm)]
  · rw [hbs4_in, hbs4_out, hao]
    have := swap_factor_lt Bin Bout Win Wout a (hbpos t_in hin) (hbpos t_out hout)
      (hwpos t_in hin) (hwpos t_out hout) ha hale
    calc (Bin - a) ^ Win * (Bout + Bout * (1 - ((Bin - a) / Bin) ^ (Win / Wout))) ^ Wout
        < Bin ^ Win * Bout ^ Wout := this
      _ = mget p.balances t_in ^ Win * mget p.balances t_out ^ Wout := by rw [← hBin, ← hBout]

/-! Auxiliary facts used by several claims. -/

theorem SUPPLY_pos : 0 < SUPPLY := by norm_num [SUPPLY]

theorem isSome_mfind?_of_mem (l : RMap) (k : String) (h : k ∈ l.map Prod.fst) :
    (mfind? l k).isSome = true := by
  induction l with
  | nil => simp at h
  | cons e rest ih =>
    simp only [List.map_cons, List.mem_cons] at h
    rcases h with h | h
    · subst h
      simp [mfind?]
    · by_cases h2 : e.1 = k
      · simp [mfind?, h2]
      · simpa [mfind?, h2] using ih h

theorem initWeights_err (amts : RMap) (s : ℝ) (ts : List String) (ws : RMap)
    (h : ∃ t ∈ ts, mfind? amts t = none) :
    (initWeights amts s ts ws).2 = .error .outOfRange := by
  induction ts generalizing ws with
  | nil => simp at h
  | cons t ts ih =>
    cases hf : mfind? amts t with
    | none => simp [initWeights, hf]
    | some v =>
      simp only [initWeights, hf]
      refine ih (mset ws t (v / s)) ?_
      rcases h with ⟨u, hu, hnone⟩
      rcases List.mem_cons.mp hu with rfl | hu'
      · rw [hf] at hnone
        exact absurd hnone (by simp)
      · exact ⟨u, hu', hnone⟩

theorem wdLoop_ws_covers (si rr : ℝ) (ts : List String) (aout bs ws : RMap)
    (h : mcovers ws ts) : (wdLoop si rr ts aout bs ws).2.2 = ws := by
  induction ts generalizing aout bs ws with
  | nil => rfl
  | cons t ts ih =>
    have ht : mtouch ws t = ws := mtouch_of_isSome ws t (h t (by simp))
    simp only [wdLoop, ht]
    exact ih _ _ ws (fun u hu => h u (by simp [hu]))

theorem eqLoop_ws_covers (twi : ℝ) (inputs : RMap) (ts : List String) (aout bs ws : RMap)
    (h : mcovers ws ts) : (eqLoop twi inputs ts aout bs ws).1.2.2 = ws := by
  induction ts generalizing aout bs ws with
  | nil => rfl
  | cons t ts ih =>
    have ht : mtouch ws t = ws := mtouch_of_isSome ws t (h t (by simp))
    simp only [eqLoop, ht]
    cases hf : mfind? inputs t with
    | none => simp [hf]
    | some v =>
      simp only [hf]
      exact ih _ _ ws (fun u hu => h u (by simp [hu]))

/-! Concrete evaluations on the two-token example pool. -/

theorem init_P0_eval : Pool.init P0 amtsXY = (P3, .ok ()) := by
  norm_num +decide [Pool.init, P0, amtsXY, P3, anyNonpos, initWeights, mfind?, mset, msum,
    FIRST]

theorem siP3_inv : (Pool.set_invariant P3).invariant = 100 := by
  norm_num +decide [Pool.set_invariant, P3, amtsXY, mtouch, mfind?, mget, FIRST]
  rw [← Real.rpow_add (by norm_num : (0:ℝ) < 100)]
  norm_num

theorem swapP3_eval :
    Pool.swap P3 "X" "Y" 10 =
      (Pool.set_invariant { P3 with balances := [("X", (90:ℝ)), ("Y", 110)] }, .ok 10) := by
  norm_num +decide [Pool.swap, P3, amtsXY, mtouch, mfind?, mget, mset, FIRST]

theorem swapP3_balances :
    (Pool.swap P3 "X" "Y" 10).1.balances = [("X", (90:ℝ)), ("Y", 110)] := by
  rw [swapP3_eval]
  norm_num +decide [Pool.set_invariant, si_loop_spec, P3, amtsXY, mtouch, mfind?]

theorem swapP3_inv :
    (Pool.swap P3 "X" "Y" 10).1.invariant = (90:ℝ) ^ ((1:ℝ)/2) * 110 ^ ((1:ℝ)/2) := by
  rw [swapP3_eval, set_invariant_invariant]
  norm_num +decide [prodInv, P3, amtsXY, mget, mfind?]

theorem dep1P3_eval :
    Pool.deposit_one P3 [("X", (10:ℝ)), ("Y", 0)] =
      (Pool.set_invariant { P3 with balances := [("X", (110:ℝ)), ("Y", 100)] },
       .ok (10 * SUPPLY / 100)) := by
  norm_num +decide [Pool.deposit_one, P3, amtsXY, countNZ, findNZ?, mfind?, mset, FIRST]

theorem initBad_eval :
    Pool.init P0 [("X", (1:ℝ)), ("Z", 1)] =
      ({ P0 with balances := [("X", (1:ℝ)), ("Z", 1)], weights := [("X", (1:ℝ)/2)] },
       .error .outOfRange) := by
  norm_num +decide [Pool.init, P0, anyNonpos, initWeights, mfind?, mset, msum]

/-- C1 counterexample: on the pool with weights {X: 1/2, Y: 1/2} and balances
{X: 100, Y: 100}, the invariant recomputed by set_invariant before
swap(X, Y, 10) is 100, while after the swap it is sqrt(90 * 110) < 99.6;
the gap exceeds 2/5, far beyond any floating tolerance, so the claimed
equality is false. -/
theorem c1_counterexample :
    (Pool.set_invariant P3).invariant - (Pool.swap P3 "X" "Y" 10).1.invariant > 2/5 := by
  rw [siP3_inv, swapP3_inv]
  rw [← Real.mul_rpow (by norm_num : (0:ℝ) ≤ 90) (by norm_num : (0:ℝ) ≤ 110)]
  rw [show (90:ℝ) * 110 = 9900 by norm_num, ← Real.sqrt_eq_rpow]
  have h : Real.sqrt 9900 < 99.6 := by
    rw [Real.sqrt_lt' (by norm_num : (0:ℝ) < 99.6)]
    norm_num
  linarith

/-- C1 witness: c1_swap_strictly_decreases_invariant instantiated on the
concrete pool P3 with swap(X, Y, 10). -/
theorem c1_witness :
    (Pool.swap P3 "X" "Y" 10).1.invariant < (Pool.set_invariant P3).invariant := by
  refine c1_swap_strictly_decreases_invariant P3 "X" "Y" 10 (by decide) (by decide)
    (by decide) (by decide) ?_ ?_ ?_ ?_ (by norm_num) ?_
  · intro t ht
    simp [P3, amtsXY, mfind?] at ht ⊢
    rcases ht with rfl | rfl <;> simp
  · intro t ht
    simp [P3, amtsXY, mfind?] at ht ⊢
    rcases ht with rfl | rfl <;> simp
  · intro t ht
    simp [P3, amtsXY] at ht
    rcases ht with rfl | rfl <;> norm_num +decide [mget, mfind?, P3, amtsXY]
  · intro t ht
    simp [P3, amtsXY] at ht
    rcases ht with rfl | rfl <;> norm_num +decide [mget, mfind?, P3, amtsXY]
  · norm_num +decide [mget, mfind?, P3, amtsXY]

/-- C3 counterexample: on the pool of the spec's swap example, swap(X, Y, 10)
does NOT leave Y at 90: the code credits amount_out to t_out, so Y ends at
110. -/
theorem c3_counterexample :
    ¬ mget (Pool.swap P3 "X" "Y" 10).1.balances "Y" = 90 := by
  rw [swapP3_balances]
  norm_num +decide [mget, mfind?]

/-- C3 (amended): on the pool with weights {X: 0.5, Y: 0.5} and balances
{X: 100, Y: 100}, swap(X, Y, 10) returns amount_out
= 100 * (1 - (90/100)^(0.5/0.5)) = 10 exactly, and leaves the post-swap
balances at X = 90 and Y = 110 (t_out is credited, not debited). -/
theorem c3_swap_example :
    (Pool.swap P3 "X" "Y" 10).2 = .ok 10 ∧
    mget (Pool.swap P3 "X" "Y" 10).1.balances "X" = 90 ∧
    mget (Pool.swap P3 "X" "Y" 10).1.balances "Y" = 110 := by
  refine ⟨by rw [swapP3_eval], ?_, ?_⟩ <;>
    rw [swapP3_balances] <;> norm_num +decide [mget, mfind?]

/-- C4: for every pool state and every redeem whose ratio redeem/SUPPLY
exceeds shares_issued, withdraw_all returns invalid_argument and leaves the
whole pool (balances, shares_issued, cached invariant) unchanged: both the
redeem ≤ 0 branch and the ratio branch throw before any mutation. -/
theorem c4_withdraw_all_excess_redeem (p : Pool) (redeem : ℝ)
    (h : p.shares_issued < redeem / SUPPLY) :
    Pool.withdraw_all p redeem = (p, .error .invalidArgument) := by
  simp only [Pool.withdraw_all]
  by_cases hr : redeem ≤ 0
  · rw [if_pos hr]
  · rw [if_neg hr, if_pos h]

/-- C4 witness: redeeming SUPPLY * SUPPLY (ratio SUPPLY, far above the FIRST
shares issued) on the concrete pool P3. -/
theorem c4_witness :
    Pool.withdraw_all P3 (SUPPLY * SUPPLY) = (P3, .error .invalidArgument) :=
  c4_withdraw_all_excess_redeem P3 (SUPPLY * SUPPLY)
    (by norm_num [P3, SUPPLY, FIRST])

/-- C5 (amended): initialize rejects with invalid_argument exactly the maps
whose SIZE differs from the token count or that contain a non-positive
amount.  A map of the right size with positive amounts but a key not in
tokens is NOT rejected with invalid_argument: the missing pool token is only
hit by amount_in.at inside the weight loop, which raises out_of_range (and
by then balances have already been overwritten). -/
theorem c5_init_validation (p : Pool) (amts : RMap) :
    (amts.length ≠ p.tokens.length → Pool.init p amts = (p, .error .invalidArgument)) ∧
    (anyNonpos amts → Pool.init p amts = (p, .error .invalidArgument)) ∧
    (amts.length = p.tokens.length → ¬ anyNonpos amts →
      (∃ t ∈ p.tokens, mfind? amts t = none) →
      (Pool.init p amts).2 = .error .outOfRange) := by
  refine ⟨?_, ?_, ?_⟩
  · intro h
    simp only [Pool.init]
    rw [if_pos h]
  · intro h
    simp only [Pool.init]
    by_cases h1 : amts.length ≠ p.tokens.length
    · rw [if_pos h1]
    · rw [if_neg h1, if_pos h]
  · intro h1 h2 h3
    simp only [Pool.init]
    rw [if_neg (by simp [h1]), if_neg h2,
      initWeights_err amts (msum amts) p.tokens p.weights h3]

/-- C5 counterexample: tokens are {X, Y}; the map {X: 1, Z: 1} has the right
size and positive amounts but key Z instead of Y, and initialize fails with
out_of_range, not invalid_argument. -/
theorem c5_counterexample :
    (Pool.init P0 [("X", (1:ℝ)), ("Z", 1)]).2 = .error .outOfRange ∧
    (Pool.init P0 [("X", (1:ℝ)), ("Z", 1)]).2 ≠ .error .invalidArgument := by
  rw [initBad_eval]
  exact ⟨rfl, by simp⟩

/-- C5 witness: the three branches of c5_init_validation on concrete inputs:
a one-entry map (size mismatch), a map with a negative amount, and the
right-size wrong-key map {X: 1, Z: 1}. -/
theorem c5_witness :
    Pool.init P0 [("X", (1:ℝ))] = (P0, .error .invalidArgument) ∧
    Pool.init P0 [("X", (1:ℝ)), ("Y", -1)] = (P0, .error .invalidArgument) ∧
    (Pool.init P0 [("X", (1:ℝ)), ("Z", 1)]).2 = .error .outOfRange := by
  refine ⟨(c5_init_validation P0 [("X", (1:ℝ))]).1 (by norm_num [P0]),
    (c5_init_validation P0 [("X", (1:ℝ)), ("Y", -1)]).2.1 (by norm_num [anyNonpos]),
    (c5_init_validation P0 [("X", (1:ℝ)), ("Z", 1)]).2.2 (by norm_num [P0])
      (by norm_num [anyNonpos]) ⟨"Y", by decide, by norm_num +decide [mfind?]⟩⟩

/-- C2 (amended): shares_issued is set to the constant FIRST by a successful
initialize; every deposit operation leaves shares_issued UNCHANGED (the
minted shares are returned to the caller but never added to shares_issued);
every successful withdrawal strictly decreases shares_issued by
redeem/SUPPLY. -/
theorem c2_shares_issued_lifecycle :
    (∀ p amts, (Pool.init p amts).2 = .ok () → (Pool.init p amts).1.shares_issued = FIRST) ∧
    (∀ (p : Pool) amts, (Pool.deposit_all p amts).1.shares_issued = p.shares_issued) ∧
    (∀ (p : Pool) amts, (Pool.deposit_one p amts).1.shares_issued = p.shares_issued) ∧
    (∀ (p : Pool) amts, (Pool.deposit_any p amts).1.shares_issued = p.shares_issued) ∧
    (∀ (p : Pool) r, 0 < r → r / SUPPLY ≤ p.shares_issued →
      (Pool.withdraw_all p r).1.shares_issued < p.shares_issued) ∧
    (∀ (p : Pool) t r, p.weights ≠ [] → 0 < r → r / SUPPLY ≤ p.shares_issued →
      (Pool.withdraw_one p t r).1.shares_issued < p.shares_issued) ∧
    (∀ (p : Pool) r rat out, (Pool.withdraw_any p r rat).2 = .ok out →
      (Pool.withdraw_any p r rat).1.shares_issued < p.shares_issued) := by
  refine ⟨?_, ?_, ?_, ?_, ?_, ?_, ?_⟩
  · intro p amts h
    simp only [Pool.init] at h ⊢
    by_cases h1 : amts.length ≠ p.tokens.length
    · rw [if_pos h1] at h
      simp at h
    · rw [if_neg h1] at h ⊢
      by_cases h2 : anyNonpos amts
      · rw [if_pos h2] at h
        simp at h
      · rw [if_neg h2] at h ⊢
        cases hw : (initWeights amts (msum amts) p.tokens p.weights).2 with
        | error e =>
          rw [hw] at h
          simp at h
        | ok u => rfl
  · intro p amts
    simp only [Pool.deposit_all]
    split
    · rfl
    · split
      · split
        · rfl
        · split <;> rfl
      · split
        · rfl
        · split <;> simp [set_invariant_shares]
  · intro p amts
    simp only [Pool.deposit_one]
    split
    · rfl
    · split
      · rfl
      · split
        · rfl
        · split
          · rfl
          · split
            · rfl
            · simp [set_invariant_shares]
  · intro p amts
    simp only [Pool.deposit_any]
    split
    · rfl
    · split
      · rfl
      · split <;> simp [set_invariant_shares]
  · intro p r hr hle
    simp only [Pool.withdraw_all]
    rw [if_neg (not_le.mpr hr), if_neg (not_lt.mpr hle)]
    rw [set_invariant_shares]
    simp only []
    have : 0 < r / SUPPLY := div_pos hr SUPPLY_pos
    linarith
  · intro p t r hw hr hle
    simp only [Pool.withdraw_one]
    rw [if_neg hw, if_neg (not_le.mpr hr), if_neg (not_lt.mpr hle)]
    rw [set_invariant_shares]
    simp only []
    have : 0 < r / SUPPLY := div_pos hr SUPPLY_pos
    linarith
  · intro p r rat out h
    simp only [Pool.withdraw_any] at h ⊢
    by_cases h1 : p.weights = []
    · rw [if_pos h1] at h
      simp at h
    · rw [if_neg h1] at h ⊢
      by_cases h2 : ¬ check_deposit_ratio p.balances rat tolerance6
      · rw [if_pos h2] at h
        simp at h
      · rw [if_neg h2] at h ⊢
        by_cases h3 : r ≤ 0
        · rw [if_pos h3] at h
          simp at h
        · rw [if_neg h3] at h ⊢
          by_cases h4 : r / SUPPLY > p.shares_issued
          · rw [if_pos h4] at h
            simp at h
          · rw [if_neg h4] at h ⊢
            cases hwa : waLoop (r / SUPPLY) rat p.tokens [] p.balances with
            | mk res exc =>
              obtain ⟨aout, bs⟩ := res
              cases exc with
              | error e =>
                rw [hwa] at h
                simp at h
              | ok u =>
                simp only [set_invariant_shares]
                have : 0 < r / SUPPLY := div_pos (not_le.mp h3) SUPPLY_pos
                linarith

/-- C2 counterexample: on the pool obtained by initialize({X: 100, Y: 100}),
deposit_one({X: 10, Y: 0}) SUCCEEDS (returning 10 * SUPPLY / 100 shares) yet
shares_issued does not strictly increase: the code never adds the minted
shares to shares_issued. -/
theorem c2_counterexample :
    (Pool.deposit_one (Pool.init P0 amtsXY).1 [("X", (10:ℝ)), ("Y", 0)]).2
        = .ok (10 * SUPPLY / 100) ∧
    ¬ ((Pool.init P0 amtsXY).1.shares_issued
        < (Pool.deposit_one (Pool.init P0 amtsXY).1 [("X", (10:ℝ)), ("Y", 0)]).1.shares_issued) := by
  have h1 : (Pool.init P0 amtsXY).1 = P3 := by rw [init_P0_eval]
  rw [h1, dep1P3_eval]
  exact ⟨rfl, by simp [set_invariant_shares]⟩

/-- C2 witness: c2_shares_issued_lifecycle at concrete inputs: initialize on
P0 mints FIRST, deposit_one on P3 leaves shares_issued unchanged, and
withdraw_all(1) on P3 strictly decreases it. -/
theorem c2_witness :
    (Pool.init P0 amtsXY).1.shares_issued = FIRST ∧
    (Pool.deposit_one P3 [("X", (10:ℝ)), ("Y", 0)]).1.shares_issued = P3.shares_issued ∧
    (Pool.withdraw_all P3 1).1.shares_issued < P3.shares_issued :=
  ⟨c2_shares_issued_lifecycle.1 P0 amtsXY (by rw [init_P0_eval]),
   c2_shares_issued_lifecycle.2.2.1 P3 [("X", (10:ℝ)), ("Y", 0)],
   c2_shares_issued_lifecycle.2.2.2.2.1 P3 1 (by norm_num)
     (by norm_num [P3, SUPPLY, FIRST])⟩

/-- C6: on a weighted pool, deposit_one fails with invalid_argument when the
number of non-zero entries differs from one, or when the single non-zero
entry is negative; when the single non-zero entry (t, a) is non-negative and
t carries a pool balance b, it succeeds, returns shares a * SUPPLY / b
computed from the PRE-deposit balance b, and sets the new balance of t to
b + a. -/
theorem c6_deposit_one_spec (p : Pool) (amts : RMap) (hw : p.weights ≠ []) :
    (countNZ amts ≠ 1 → Pool.deposit_one p amts = (p, .error .invalidArgument)) ∧
    (∀ t a, findNZ? amts = some (t, a) → a < 0 →
      Pool.deposit_one p amts = (p, .error .invalidArgument)) ∧
    (∀ t a b, countNZ amts = 1 → findNZ? amts = some (t, a) → ¬ a < 0 →
      mfind? p.balances t = some b →
      Pool.deposit_one p amts =
        (Pool.set_invariant { p with balances := mset p.balances t (b + a) },
         .ok (a * SUPPLY / b))) := by
  refine ⟨?_, ?_, ?_⟩
  · intro h
    simp only [Pool.deposit_one]
    rw [if_neg hw, if_pos h]
  · intro t a hf ha
    by_cases hc : countNZ amts ≠ 1
    · simp only [Pool.deposit_one]
      rw [if_neg hw, if_pos hc]
    · simp [Pool.deposit_one, hw, hc, hf, ha]
  · intro t a b hcnt hf ha hb
    simp [Pool.deposit_one, hw, hcnt, hf, ha, hb]

/-- C6 witness: c6_deposit_one_spec on the concrete pool P3: two non-zero
entries are rejected, a negative single entry is rejected, and the
single-entry deposit {X: 10, Y: 0} succeeds with 10 * SUPPLY / 100 shares. -/
theorem c6_witness :
    Pool.deposit_one P3 [("X", (1:ℝ)), ("Y", 2)] = (P3, .error .invalidArgument) ∧
    Pool.deposit_one P3 [("X", (-4:ℝ)), ("Y", 0)] = (P3, .error .invalidArgument) ∧
    Pool.deposit_one P3 [("X", (10:ℝ)), ("Y", 0)] =
      (Pool.set_invariant { P3 with balances := mset P3.balances "X" (100 + 10) },
       .ok (10 * SUPPLY / 100)) := by
  refine ⟨(c6_deposit_one_spec P3 _ (by simp [P3])).1 (by norm_num [countNZ]),
    (c6_deposit_one_spec P3 _ (by simp [P3])).2.1 "X" (-4)
      (by norm_num [findNZ?]) (by norm_num),
    (c6_deposit_one_spec P3 _ (by simp [P3])).2.2 "X" 10 100 (by norm_num [countNZ])
      (by norm_num [findNZ?]) (by norm_num)
      (by norm_num +decide [P3, amtsXY, mfind?])⟩

/-- C7 (amended): check_deposit_ratio accepts any amounts map obtained from
the balances map by scaling every value by a non-zero constant WITH THE SAME
iteration order, and rejects any amounts map some aligned position of which
has a normalized share at distance at least the tolerance from the
corresponding balance share.  The comparison is element-wise in the two
maps' own iteration orders (NOT the canonical token ordering), so the same
map contents presented in a different order can be rejected. -/
theorem c7_check_deposit_ratio_props :
    (∀ (bs : RMap) (c tol : ℝ), c ≠ 0 → 0 < tol →
      check_deposit_ratio bs (bs.map (fun e => (e.1, c * e.2))) tol) ∧
    (∀ (bs amts : RMap) (tol : ℝ) (i : ℕ), i < bs.length → i < amts.length →
      tol ≤ |(ratioVec bs).getD i 0 - (ratioVec amts).getD i 0| →
      ¬ check_deposit_ratio bs amts tol) := by
  constructor
  · intro bs c tol hc htol
    unfold check_deposit_ratio
    rw [ratioVec_scale bs c hc]
    exact stdEqualTol_refl tol htol _
  · intro bs amts tol i hib hia hfar
    unfold check_deposit_ratio
    exact stdEqualTol_get_false tol _ _ i (by simpa [ratioVec] using hib)
      (by simpa [ratioVec] using hia) hfar

/-- C7 counterexample: the map [("B", 3), ("A", 1)] holds exactly the same
entries as the balances [("A", 1), ("B", 3)] (a positive scalar multiple with
factor 1, as the permutation and the pointwise equality show), yet
check_deposit_ratio rejects it at tolerance 1e-6, because the ratio vectors
are built in each map's own iteration order: [1/4, 3/4] against [3/4, 1/4]. -/
theorem c7_counterexample :
    List.Perm [(("B":String), (3:ℝ)), ("A", 1)] [("A", (1:ℝ)), ("B", 3)] ∧
    (∀ k, mget [(("B":String), (3:ℝ)), ("A", 1)] k = 1 * mget [("A", (1:ℝ)), ("B", 3)] k) ∧
    ¬ check_deposit_ratio [("A", (1:ℝ)), ("B", 3)] [("B", (3:ℝ)), ("A", 1)] tolerance6 := by
  refine ⟨List.Perm.swap _ _ _, ?_, ?_⟩
  · intro k
    by_cases hA : "A" = k
    · subst hA
      norm_num +decide [mget, mfind?]
    · by_cases hB : "B" = k
      · subst hB
        norm_num +decide [mget, mfind?]
      · simp [mget, mfind?, hA, hB]
  · norm_num [check_deposit_ratio, ratioVec, msum, stdEqualTol, tolerance6, abs_lt]

/-- C7 witness: c7_check_deposit_ratio_props on concrete maps: the order-
preserving doubling of [("A", 1), ("B", 3)] is accepted, and a map whose
first share moved from 1/4 to 1/301 is rejected. -/
theorem c7_witness :
    check_deposit_ratio [("A", (1:ℝ)), ("B", 3)]
      (List.map (fun e => (e.1, (2:ℝ) * e.2)) [("A", (1:ℝ)), ("B", 3)]) tolerance6 ∧
    ¬ check_deposit_ratio [("A", (1:ℝ)), ("B", 3)] [("A", (1:ℝ)), ("B", 300)] tolerance6 := by
  constructor
  · exact c7_check_deposit_ratio_props.1 [("A", (1:ℝ)), ("B", 3)] 2 tolerance6
      (by norm_num) (by norm_num [tolerance6])
  · refine c7_check_deposit_ratio_props.2 [("A", (1:ℝ)), ("B", 3)]
      [("A", (1:ℝ)), ("B", 300)] tolerance6 0 (by norm_num) (by norm_num) ?_
    have h1 : ratioVec [("A", (1:ℝ)), ("B", 3)] = [1/4, 3/4] := by
      norm_num [ratioVec, msum]
    have h2 : ratioVec [("A", (1:ℝ)), ("B", 300)] = [1/301, 300/301] := by
      norm_num [ratioVec, msum]
    rw [h1, h2]
    simp only [List.getD_cons_zero]
    rw [show |(1:ℝ)/4 - 1/301| = 1/4 - 1/301 from abs_of_pos (by norm_num)]
    norm_num [tolerance6]

/-- C8: on a pool whose weights are still empty (and which therefore has its
construction-time shares_issued = 0 — initialize is the only way shares are
minted and it populates weights first), every single/multi-asset operation
fails with invalid_argument: deposit_one, deposit_any, withdraw_one,
withdraw_any, swap and equalize check weights.empty() explicitly, and
withdraw_all fails its redeem validation (a non-positive redeem is rejected
outright, a positive one has ratio redeem/SUPPLY > 0 = shares_issued). -/
theorem c8_ops_before_weights (p : Pool) (hw : p.weights = []) (hs : p.shares_issued = 0) :
    (∀ a, Pool.deposit_one p a = (p, .error .invalidArgument)) ∧
    (∀ a, Pool.deposit_any p a = (p, .error .invalidArgument)) ∧
    (∀ r, Pool.withdraw_all p r = (p, .error .invalidArgument)) ∧
    (∀ t r, Pool.withdraw_one p t r = (p, .error .invalidArgument)) ∧
    (∀ r rat, Pool.withdraw_any p r rat = (p, .error .invalidArgument)) ∧
    (∀ tin tout a, Pool.swap p tin tout a = (p, .error .invalidArgument)) ∧
    (∀ i ro, Pool.equalize p i ro = (p, .error .invalidArgument)) := by
  refine ⟨?_, ?_, ?_, ?_, ?_, ?_, ?_⟩
  · intro a
    simp [Pool.deposit_one, hw]
  · intro a
    simp [Pool.deposit_any, hw]
  · intro r
    by_cases hr : r ≤ 0
    · simp [Pool.withdraw_all, hr]
    · simp only [Pool.withdraw_all]
      rw [if_neg hr,
        if_pos (show r / SUPPLY > p.shares_issued from
          hs ▸ div_pos (not_le.mp hr) SUPPLY_pos)]
  · intro t r
    simp [Pool.withdraw_one, hw]
  · intro r rat
    simp [Pool.withdraw_any, hw]
  · intro tin tout a
    simp [Pool.swap, hw]
  · intro i ro
    simp [Pool.equalize, hw]

/-- C8 witness: c8_ops_before_weights on the freshly constructed pool P0. -/
theorem c8_witness :
    Pool.swap P0 "X" "Y" 1 = (P0, .error .invalidArgument) ∧
    Pool.withdraw_all P0 5 = (P0, .error .invalidArgument) ∧
    Pool.deposit_one P0 [("X", (1:ℝ)), ("Y", 2)] = (P0, .error .invalidArgument) :=
  ⟨(c8_ops_before_weights P0 rfl rfl).2.2.2.2.2.1 "X" "Y" 1,
   (c8_ops_before_weights P0 rfl rfl).2.2.1 5,
   (c8_ops_before_weights P0 rfl rfl).1 [("X", (1:ℝ)), ("Y", 2)]⟩

/-- C10: on a pool whose balances map is empty, check_deposit_ratio is
vacuously true for EVERY amounts map (std::equal walks the empty
existing-ratio range), and consequently deposit_all on a freshly
constructed pool accepts any all-positive amounts map containing tokens[0],
regardless of its proportions. -/
theorem c10_empty_balances_accepts_all :
    (∀ (amts : RMap) (tol : ℝ), check_deposit_ratio [] amts tol) ∧
    (∀ (p : Pool) (amts : RMap), p.balances = [] → p.weights = [] →
      ¬ anyNonpos amts → tok0 p ∈ amts.map Prod.fst →
      ∃ s, (Pool.deposit_all p amts).2 = .ok s) := by
  constructor
  · intro amts tol
    exact trivial
  · intro p amts hb hw hpos hmem
    have hchk : check_deposit_ratio p.balances amts tolerance6 := by
      rw [hb]
      exact trivial
    simp only [Pool.deposit_all]
    rw [if_neg hpos, if_pos hw, if_neg (not_not_intro hchk)]
    obtain ⟨a0, ha0⟩ := Option.isSome_iff_exists.mp (isSome_mfind?_of_mem amts _ hmem)
    obtain ⟨b0, hb0⟩ := Option.isSome_iff_exists.mp (isSome_foldl_madd amts p.balances _ hmem)
    rw [ha0, hb0]
    exact ⟨_, rfl⟩

/-- C10 witness: the ratio check on an empty-balance pool accepts an
arbitrary map even at tolerance 0, and deposit_all on the fresh pool P0
accepts the disproportionate map {X: 5, Q: 7} (Q is not even a pool token). -/
theorem c10_witness :
    check_deposit_ratio [] [("Z", (3:ℝ))] 0 ∧
    ∃ s, (Pool.deposit_all P0 [("X", (5:ℝ)), ("Q", 7)]).2 = .ok s :=
  ⟨c10_empty_balances_accepts_all.1 [("Z", (3:ℝ))] 0,
   c10_empty_balances_accepts_all.2 P0 [("X", (5:ℝ)), ("Q", 7)] rfl rfl
     (by norm_num [anyNonpos]) (by decide)⟩

/-- Variant of set_invariant_weights stated on an explicit structure literal,
convenient for rewriting inside operation bodies. -/
theorem si_weights_mk (ts : List String) (ws bs : RMap) (sh inv : ℝ)
    (h : mcovers ws ts) :
    (Pool.set_invariant ⟨ts, ws, bs, sh, inv⟩).weights = ws :=
  set_invariant_weights ⟨ts, ws, bs, sh, inv⟩ h

/-- C9: once the weights map covers every pool token (the state a successful
initialize leaves behind), no operation other than initialize changes the
weights map, whether it succeeds or fails, provided the token arguments of
withdraw_one and swap are pool tokens: every operator[] read of weights then
hits an existing key, so the only writes initialize performs are never
repeated. -/
theorem c9_weights_immutable (p : Pool) (hcov : mcovers p.weights p.tokens) :
    (∀ a, (Pool.deposit_all p a).1.weights = p.weights) ∧
    (∀ a, (Pool.deposit_one p a).1.weights = p.weights) ∧
    (∀ a, (Pool.deposit_any p a).1.weights = p.weights) ∧
    (∀ r, (Pool.withdraw_all p r).1.weights = p.weights) ∧
    (∀ t r, t ∈ p.tokens → (Pool.withdraw_one p t r).1.weights = p.weights) ∧
    (∀ r rat, (Pool.withdraw_any p r rat).1.weights = p.weights) ∧
    (∀ tin tout a, tin ∈ p.tokens → tout ∈ p.tokens →
      (Pool.swap p tin tout a).1.weights = p.weights) ∧
    (∀ i ro, (Pool.equalize p i ro).1.weights = p.weights) := by
  refine ⟨?_, ?_, ?_, ?_, ?_, ?_, ?_, ?_⟩
  · intro a
    simp only [Pool.deposit_all]
    split
    · rfl
    · split
      · split
        · rfl
        · split <;> rfl
      · split
        · rfl
        · split <;> rw [si_weights_mk p.tokens p.weights _ _ _ hcov]
  · intro a
    simp only [Pool.deposit_one]
    split
    · rfl
    · split
      · rfl
      · split
        · rfl
        · split
          · rfl
          · split
            · rfl
            · rw [si_weights_mk p.tokens p.weights _ _ _ hcov]
  · intro a
    simp only [Pool.deposit_any]
    split
    · rfl
    · split
      · rfl
      · split <;> rw [si_weights_mk p.tokens p.weights _ _ _ hcov]
  · intro r
    simp only [Pool.withdraw_all]
    split
    · rfl
    · split
      · rfl
      · rw [wdLoop_ws_covers p.shares_issued (r / SUPPLY) p.tokens [] p.balances
          p.weights hcov, si_weights_mk p.tokens p.weights _ _ _ hcov]
  · intro t r hmem
    simp only [Pool.withdraw_one]
    split
    · rfl
    · split
      · rfl
      · split
        · rfl
        · rw [mtouch_of_isSome p.weights t (hcov t hmem),
            si_weights_mk p.tokens p.weights _ _ _ hcov]
  · intro r rat
    simp only [Pool.withdraw_any]
    split
    · rfl
    · split
      · rfl
      · split
        · rfl
        · split
          · rfl
          · split
            · rw [si_weights_mk p.tokens p.weights _ _ _ hcov]
            · rfl
  · intro tin tout a hin hout
    simp only [Pool.swap]
    split
    · rfl
    · split
      · rfl
      · split
        · rfl
        · rw [mtouch_of_isSome p.weights tin (hcov tin hin),
            mtouch_of_isSome p.weights tout (hcov tout hout),
            si_weights_mk p.tokens p.weights _ _ _ hcov]
  · intro i ro
    simp only [Pool.equalize]
    split
    · rfl
    · split
      · rfl
      · split
        · rfl
        · rename_i twi hacc
          split
          · rename_i aout bs ws u heq
            have hws : ws = p.weights := by
              have h0 := eqLoop_ws_covers twi i p.tokens [] p.balances p.weights hcov
              rw [heq] at h0
              exact h0
            rw [hws, si_weights_mk p.tokens p.weights _ _ _ hcov]
          · rename_i fst bs ws e heq
            have hws : ws = p.weights := by
              have h0 := eqLoop_ws_covers twi i p.tokens [] p.balances p.weights hcov
              rw [heq] at h0
              exact h0
            exact hws

/-! A successful initialize gives every pool token a weight, which is the
coverage precondition used for the weight-immutability claim. -/

theorem initWeights_pres (amts : RMap) (s : ℝ) (ts : List String) (ws : RMap) (k : String)
    (h : (mfind? ws k).isSome = true) :
    (mfind? (initWeights amts s ts ws).1 k).isSome = true := by
  induction ts generalizing ws with
  | nil => simpa [initWeights] using h
  | cons t ts ih =>
    cases hf : mfind? amts t with
    | none => simpa [initWeights, hf] using h
    | some v =>
      simp only [initWeights, hf]
      exact ih (mset ws t (v / s)) (isSome_mset ws t k (v / s) h)

theorem initWeights_covers (amts : RMap) (s : ℝ) (ts : List String) (ws : RMap)
    (h : (initWeights amts s ts ws).2 = .ok ()) :
    mcovers (initWeights amts s ts ws).1 ts := by
  induction ts generalizing ws with
  | nil => intro t ht; simp at ht
  | cons t ts ih =>
    cases hf : mfind? amts t with
    | none =>
      rw [initWeights, hf] at h
      simp at h
    | some v =>
      intro u hu
      simp only [initWeights, hf] at h ⊢
      rcases List.mem_cons.mp hu with rfl | hu'
      · exact initWeights_pres amts s ts (mset ws u (v / s)) u
          (by simp [mfind?_mset_self])
      · exact ih (mset ws t (v / s)) h u hu'

theorem init_covers_tokens (p : Pool) (amts : RMap)
    (h : (Pool.init p amts).2 = .ok ()) :
    mcovers (Pool.init p amts).1.weights p.tokens := by
  simp only [Pool.init] at h ⊢
  by_cases h1 : amts.length ≠ p.tokens.length
  · rw [if_pos h1] at h
    simp at h
  · rw [if_neg h1] at h ⊢
    by_cases h2 : anyNonpos amts
    · rw [if_pos h2] at h
      simp at h
    · rw [if_neg h2] at h ⊢
      cases hw : (initWeights amts (msum amts) p.tokens p.weights).2 with
      | error e =>
        rw [hw] at h
        simp at h
      | ok u =>
        exact initWeights_covers amts (msum amts) p.tokens p.weights hw

/-- C9 witness: c9_weights_immutable on the concrete pool P3: a single-token
withdrawal, a swap and a full deposit all leave the weights map untouched. -/
theorem c9_witness :
    (Pool.withdraw_one P3 "X" 7).1.weights = P3.weights ∧
    (Pool.swap P3 "X" "Y" 5).1.weights = P3.weights ∧
    (Pool.deposit_all P3 [("X", (1:ℝ)), ("Y", 1)]).1.weights = P3.weights :=
  ⟨(c9_weights_immutable P3 (by unfold mcovers; decide)).2.2.2.2.1 "X" 7 (by decide),
   (c9_weights_immutable P3 (by unfold mcovers; decide)).2.2.2.2.2.2.1 "X" "Y" 5
     (by decide) (by decide),
   (c9_weights_immutable P3 (by unfold mcovers; decide)).1 [("X", (1:ℝ)), ("Y", 1)]⟩
